import Mathlib

/-!
Verification of the Geohash codec (`src/geohash.py`).

The Python class `Geohash` is embedded shallowly:
* Python `float` values are modelled as `ℚ`.  Every number the codec
  manipulates is a dyadic rational of tiny magnitude (midpoints of repeated
  bisections of `[-90, 90]` and `[-180, 180]`, and those midpoints shifted by
  cell sizes `180 / 2^k`, `360 / 2^k`), so IEEE-754 doubles represent all of
  them exactly and the rational model is faithful.
* Python `str` values (geohash codes) are modelled as `List Char`.
* Python `raise ValueError` is modelled by `Except GeoError`, with one
  constructor per error kind of the specification.
* `self.precision` is passed as an explicit argument `precision`.
-/

namespace Geohash

/-- The four error kinds of §7 of the specification, standing for the
`ValueError`s raised by `geohash.py`. -/
inductive GeoError
  | configError
  | rangeError
  | lengthError
  | alphabetError
deriving DecidableEq, Repr

/-- `Geohash.BASE32` (line 2 of `geohash.py`): the fixed 32-character
alphabet, as a list of characters. -/
def BASE32 : List Char := "0123456789bcdefghjkmnpqrstuvwxyz".toList

/-- `Geohash.__init__` (lines 4–8): validates the precision and stores it.
The stored state is modelled by returning the validated precision. -/
def init (precision : ℤ) : Except GeoError ℤ :=
  if 1 ≤ precision ∧ precision ≤ 12 then .ok precision
  else .error .configError

/-- The default value of the `precision` parameter of `Geohash.__init__`
(line 4: `def __init__(self, precision: int = 5)`). -/
def defaultPrecision : ℤ := 5

/-- The loop of `Geohash._encode_bitstream` (lines 17–26): iterated binary
subdivision.  Python appends to `res`; here the produced bits are returned
front-first in the same order. -/
def encodeBits : ℚ → ℚ → ℚ → ℕ → List Bool
  | _, _, _, 0 => []
  | value, lo, hi, n + 1 =>
    let mid := (lo + hi) / 2
    if mid < value then true :: encodeBits value mid hi n
    else false :: encodeBits value lo mid n

/-- `Geohash._encode_bitstream` (lines 10–26): range check, then the
subdivision loop. -/
def encodeBitstream (value lo hi : ℚ) (bit_length : ℕ) :
    Except GeoError (List Bool) :=
  if lo ≤ value ∧ value ≤ hi then .ok (encodeBits value lo hi bit_length)
  else .error .rangeError

/-- The interleaving loop of `Geohash.encode` (lines 38–43): for each index
`i`, append the longitude bit (if any), then the latitude bit (if any). -/
def interleave (lon_stream lat_stream : List Bool) (lon_bits lat_bits : ℕ) :
    List Bool :=
  (List.range (max lat_bits lon_bits)).foldl
    (fun acc i =>
      let acc := if i < lon_bits then acc ++ [lon_stream.getD i false] else acc
      if i < lat_bits then acc ++ [lat_stream.getD i false] else acc)
    []

/-- The body of the base-32 conversion loop of `Geohash.encode`
(lines 48–53): pad a 5-bit chunk, compute its value, and look the character
up in `BASE32`. -/
def chunkChar (chunk : List Bool) : Char :=
  let padded := chunk ++ List.replicate (5 - chunk.length) false
  let value := (padded.enum.map fun jb => (if jb.2 then 1 else 0) <<< (4 - jb.1)).sum
  BASE32.getD value ' '

/-- The base-32 conversion loop of `Geohash.encode` (lines 46–53).  The
Python loop `for i in range(0, bit_length, 5)` runs `(bit_length + 4) / 5`
times; that iteration count is the second argument. -/
def toBase32 : List Bool → ℕ → List Char
  | _, 0 => []
  | bits, k + 1 => chunkChar (bits.take 5) :: toBase32 (bits.drop 5) k

/-- `Geohash.encode` (lines 28–55). -/
def encode (precision : ℕ) (lat lon : ℚ) : Except GeoError (List Char) :=
  let bit_length := precision * 5
  let lat_bits := bit_length / 2
  let lon_bits := bit_length - lat_bits
  match encodeBitstream lat (-90) 90 lat_bits,
        encodeBitstream lon (-180) 180 lon_bits with
  | .ok lat_stream, .ok lon_stream =>
      .ok (toBase32 (interleave lon_stream lat_stream lon_bits lat_bits)
            ((bit_length + 4) / 5))
  | .error e, _ => .error e
  | .ok _, .error e => .error e

/-- The interval-narrowing loop of `Geohash._decode_bitstream`
(lines 61–66).  The fuel argument is the number of bits still to consume;
at fuel `n + 1` the bit at position `n` (Python: `bit_count - 1 - i`) is
examined.  Returns the final interval. -/
def decodeBitsAux (bitstream : ℕ) : ℕ → ℚ → ℚ → ℚ × ℚ
  | 0, min_val, max_val => (min_val, max_val)
  | n + 1, min_val, max_val =>
    let mid := (min_val + max_val) / 2
    if (bitstream >>> n) &&& 1 = 1 then decodeBitsAux bitstream n mid max_val
    else decodeBitsAux bitstream n min_val mid

/-- `Geohash._decode_bitstream` (lines 57–67): narrow the interval along the
bits, then return the midpoint of the final interval. -/
def decodeBitstream (bitstream : ℕ) (bit_count : ℕ) (min_val max_val : ℚ) : ℚ :=
  let p := decodeBitsAux bitstream bit_count min_val max_val
  (p.1 + p.2) / 2

/-- The deinterleaving loop of `Geohash.decode` (lines 89–95): walk the
combined bit stream from the most significant bit; even positions feed the
longitude stream (first component), odd positions the latitude stream
(second component). -/
def deinterleave (value : ℕ) (bit_length : ℕ) : ℕ × ℕ :=
  (List.range bit_length).foldl
    (fun (p : ℕ × ℕ) i =>
      let bit := (value >>> (bit_length - 1 - i)) &&& 1
      if i % 2 = 0 then ((p.1 <<< 1) ||| bit, p.2)
      else (p.1, (p.2 <<< 1) ||| bit))
    (0, 0)

/-- `Geohash.decode` (lines 69–99). -/
def decode (precision : ℕ) (geohash : List Char) : Except GeoError (ℚ × ℚ) :=
  if geohash.length ≠ precision then .error .lengthError
  else if ¬ (∀ c ∈ geohash, c ∈ BASE32) then .error .alphabetError
  else
    let bit_length := precision * 5
    let lat_bits := bit_length / 2
    let lon_bits := bit_length - lat_bits
    let geohash_value := geohash.foldl (fun acc c => (acc <<< 5) ||| BASE32.indexOf c) 0
    let streams := deinterleave geohash_value bit_length
    .ok (decodeBitstream streams.2 lat_bits (-90) 90,
         decodeBitstream streams.1 lon_bits (-180) 180)

/-- `Geohash._get_cell_size` (lines 101–116). -/
def getCellSize (precision : ℕ) : ℚ × ℚ :=
  let lat_bits := precision * 5 / 2
  let lon_bits := precision * 5 - lat_bits
  (180 / 2 ^ lat_bits, 360 / 2 ^ lon_bits)

/-- The latitude-bound handling of `Geohash.get_neighbors` (lines 139–142):
saturate at the poles. -/
def clampLat (x : ℚ) : ℚ :=
  if x > 90 then 90 else if x < -90 then -90 else x

/-- The longitude-wrap handling of `Geohash.get_neighbors` (lines 145–148):
one wrap across the antimeridian. -/
def wrapLon (x : ℚ) : ℚ :=
  if x > 180 then x - 360 else if x < -180 then x + 360 else x

/-- The `directions` dictionary of `Geohash.get_neighbors` (lines 124–133),
in Python insertion order. -/
def directions (lat_height lon_width : ℚ) : List (String × ℚ × ℚ) :=
  [("n", lat_height, 0), ("s", -lat_height, 0),
   ("e", 0, lon_width), ("w", 0, -lon_width),
   ("ne", lat_height, lon_width), ("se", -lat_height, lon_width),
   ("nw", lat_height, -lon_width), ("sw", -lat_height, -lon_width)]

/-- One iteration of the neighbor loop of `Geohash.get_neighbors`
(lines 135–150): offset, clamp, wrap, re-encode. -/
def neighborEntry (precision : ℕ) (center_lat center_lon : ℚ)
    (d : String × ℚ × ℚ) : Except GeoError (String × List Char) :=
  match encode precision (clampLat (center_lat + d.2.1))
        (wrapLon (center_lon + d.2.2)) with
  | .ok code => .ok (d.1, code)
  | .error e => .error e

/-- The neighbor loop of `Geohash.get_neighbors` (lines 134–150): build the
direction-to-code mapping entry by entry, aborting on the first error, as the
Python loop does when `encode` raises. -/
def neighborLoop (precision : ℕ) (center_lat center_lon : ℚ) :
    List (String × ℚ × ℚ) → Except GeoError (List (String × List Char))
  | [] => .ok []
  | d :: rest =>
    (neighborEntry precision center_lat center_lon d).bind fun entry =>
      (neighborLoop precision center_lat center_lon rest).bind fun l =>
        .ok (entry :: l)

/-- `Geohash.get_neighbors` (lines 118–151).  The Python `dict` result is
modelled as an association list in insertion order; the exception raised by
`decode` on an invalid argument propagates. -/
def getNeighbors (precision : ℕ) (geohash : List Char) :
    Except GeoError (List (String × List Char)) :=
  (decode precision geohash).bind fun center =>
    let cell := getCellSize geohash.length
    neighborLoop precision center.1 center.2 (directions cell.1 cell.2)

/-!
Proof layer.  `bitsToNat` interprets a bit list (most significant bit first)
as the natural number the Python code builds with `(stream << 1) | bit`;
`splitParity` splits a list into its even-indexed and odd-indexed elements;
`riffle` is the canonical alternating merge.  They are proof bridges, not
part of the embedding.
-/

/-- Value of a most-significant-first bit list. -/
def bitsToNat : List Bool → ℕ
  | [] => 0
  | b :: t => b.toNat * 2 ^ t.length + bitsToNat t

/-- Even-indexed and odd-indexed elements of a list. -/
def splitParity : List Bool → List Bool × List Bool
  | [] => ([], [])
  | a :: t => (a :: (splitParity t).2, (splitParity t).1)

/-- Alternating merge, first list first. -/
def riffle : List Bool → List Bool → List Bool
  | x :: xs, y :: ys => x :: y :: riffle xs ys
  | xs, [] => xs
  | [], _ :: _ => []

/-- The value decoding a value re-quantised through one encode/decode pass. -/
def requant (v lo hi : ℚ) (n : ℕ) : ℚ :=
  decodeBitstream (bitsToNat (encodeBits v lo hi n)) n lo hi

theorem bitsToNat_lt (l : List Bool) : bitsToNat l < 2 ^ l.length := by
  induction l with
  | nil => simp [bitsToNat]
  | cons b t ih =>
    simp only [bitsToNat, List.length_cons, pow_succ]
    cases b <;> simp [Bool.toNat] <;> omega

theorem bitsToNat_append (xs ys : List Bool) :
    bitsToNat (xs ++ ys) = bitsToNat xs * 2 ^ ys.length + bitsToNat ys := by
  induction xs with
  | nil => simp [bitsToNat]
  | cons b t ih =>
    simp only [List.cons_append, bitsToNat, List.append_eq, List.length_append, ih,
      List.length_cons]
    rw [pow_add]
    ring

theorem bitsToNat_singleton (b : Bool) : bitsToNat [b] = b.toNat := by
  simp [bitsToNat]

theorem bitsToNat_replicate_false (n : ℕ) : bitsToNat (List.replicate n false) = 0 := by
  induction n with
  | zero => rfl
  | succ n ih => simp [List.replicate, bitsToNat, ih]

theorem or_two_mul (c b : ℕ) : (2 * c) ||| b = 2 * (c ||| b / 2) + b % 2 := by
  have hdiv : ((2 * c) ||| b) / 2 = c ||| b / 2 := by
    rw [Nat.or_div_two]
    congr 1
    omega
  have hmod : ((2 * c) ||| b) % 2 = b % 2 := by
    have h1 := Nat.or_mod_two_eq_one (a := 2 * c) (b := b)
    have h2 : (2 * c) % 2 = 0 := by omega
    have h3 := Nat.mod_two_eq_zero_or_one ((2 * c) ||| b)
    have h4 := Nat.mod_two_eq_zero_or_one b
    omega
  omega

theorem shiftLeft_or_eq (a b k : ℕ) (hb : b < 2 ^ k) :
    (a <<< k) ||| b = a * 2 ^ k + b := by
  induction k generalizing a b with
  | zero =>
    have : b = 0 := by simpa using hb
    subst this
    simp [Nat.shiftLeft_eq]
  | succ k ih =>
    have hx : a <<< (k + 1) = 2 * (a <<< k) := by
      simp [Nat.shiftLeft_eq, pow_succ]
      ring
    have hpow : 2 ^ (k + 1) = 2 * 2 ^ k := by rw [pow_succ]; ring
    have hb2 : b / 2 < 2 ^ k := by omega
    rw [hx, or_two_mul, ih a (b / 2) hb2]
    have := Nat.div_add_mod b 2
    rw [Nat.mul_add, hpow]
    ring_nf
    omega

theorem lower_bits (c r m j : ℕ) (hr : r < 2 ^ m) (hj : j < m) :
    (c * 2 ^ m + r) / 2 ^ j % 2 = r / 2 ^ j % 2 := by
  obtain ⟨e, rfl⟩ : ∃ e, m = j + (e + 1) := ⟨m - j - 1, by omega⟩
  have h1 : c * 2 ^ (j + (e + 1)) + r = r + 2 ^ j * (c * 2 ^ (e + 1)) := by
    rw [pow_add]
    ring
  rw [h1, Nat.add_mul_div_left _ _ (pow_pos (by norm_num) j)]
  have h3 : c * 2 ^ (e + 1) = 2 * (c * 2 ^ e) := by rw [pow_succ]; ring
  rw [h3]
  omega

theorem top_bit (c r n : ℕ) (hr : r < 2 ^ n) :
    (c * 2 ^ n + r) / 2 ^ n % 2 = c % 2 := by
  have h1 : c * 2 ^ n + r = r + 2 ^ n * c := by ring
  rw [h1, Nat.add_mul_div_left _ _ (pow_pos (by norm_num) n), Nat.div_eq_of_lt hr]
  omega

theorem shiftRight_and_one (b n : ℕ) : (b >>> n) &&& 1 = b / 2 ^ n % 2 := by
  rw [Nat.shiftRight_eq_div_pow, Nat.and_one_is_mod]

theorem encodeBits_length (v lo hi : ℚ) (n : ℕ) :
    (encodeBits v lo hi n).length = n := by
  induction n generalizing lo hi with
  | zero => rfl
  | succ n ih =>
    simp only [encodeBits]
    split <;> simp [ih]

theorem decodeBitsAux_congr (n : ℕ) (b b' : ℕ) (lo hi : ℚ)
    (h : ∀ j < n, b / 2 ^ j % 2 = b' / 2 ^ j % 2) :
    decodeBitsAux b n lo hi = decodeBitsAux b' n lo hi := by
  induction n generalizing lo hi with
  | zero => rfl
  | succ n ih =>
    simp only [decodeBitsAux, shiftRight_and_one, h n (by omega)]
    split <;> exact ih _ _ (fun j hj => h j (by omega))

theorem decodeBitsAux_bounds (n : ℕ) (b : ℕ) (lo hi : ℚ) (h : lo ≤ hi) :
    lo ≤ (decodeBitsAux b n lo hi).1 ∧
    (decodeBitsAux b n lo hi).2 ≤ hi ∧
    (decodeBitsAux b n lo hi).2 - (decodeBitsAux b n lo hi).1 = (hi - lo) / 2 ^ n := by
  induction n generalizing lo hi with
  | zero => exact ⟨le_refl _, le_refl _, by simp [decodeBitsAux]⟩
  | succ n ih =>
    have hpow : (2 : ℚ) ^ (n + 1) = 2 ^ n * 2 := by rw [pow_succ]
    simp only [decodeBitsAux]
    split
    · have hmid : lo ≤ (lo + hi) / 2 := by linarith
      obtain ⟨h1, h2, h3⟩ := ih ((lo + hi) / 2) hi (by linarith)
      refine ⟨by linarith, h2, ?_⟩
      rw [h3, hpow]
      field_simp
      ring
    · have hmid : (lo + hi) / 2 ≤ hi := by linarith
      obtain ⟨h1, h2, h3⟩ := ih lo ((lo + hi) / 2) (by linarith)
      refine ⟨h1, by linarith, ?_⟩
      rw [h3, hpow]
      field_simp
      ring

/-- The bit the decoder reads from `bitsToNat (c :: t)` at the top position
is `c`, and the remaining positions agree with `bitsToNat t`. -/
theorem decodeBitsAux_cons (c : Bool) (t : List Bool) (lo hi : ℚ) :
    decodeBitsAux (bitsToNat (c :: t)) (t.length + 1) lo hi =
      (if c then decodeBitsAux (bitsToNat t) t.length ((lo + hi) / 2) hi
       else decodeBitsAux (bitsToNat t) t.length lo ((lo + hi) / 2)) := by
  have hlt : bitsToNat t < 2 ^ t.length := bitsToNat_lt t
  have htop : (bitsToNat (c :: t) >>> t.length) &&& 1 = c.toNat := by
    rw [shiftRight_and_one]
    show (c.toNat * 2 ^ t.length + bitsToNat t) / 2 ^ t.length % 2 = c.toNat
    rw [top_bit _ _ _ hlt]
    cases c <;> rfl
  have hcongr : ∀ lo' hi' : ℚ,
      decodeBitsAux (bitsToNat (c :: t)) t.length lo' hi' =
        decodeBitsAux (bitsToNat t) t.length lo' hi' := by
    intro lo' hi'
    refine decodeBitsAux_congr _ _ _ _ _ (fun j hj => ?_)
    show (c.toNat * 2 ^ t.length + bitsToNat t) / 2 ^ j % 2 = bitsToNat t / 2 ^ j % 2
    exact lower_bits _ _ _ _ hlt hj
  simp only [decodeBitsAux, htop]
  cases c with
  | false => simp [hcongr]
  | true => simp [hcongr]

/-- Soundness of one encode/decode pass at the bit level: the final interval
of the decoder run on the encoder's output contains the original value, lies
inside the original interval, and has width `(hi - lo) / 2 ^ n`. -/
theorem decodeBitsAux_encodeBits (n : ℕ) (v lo hi : ℚ) (h1 : lo ≤ v) (h2 : v ≤ hi) :
    lo ≤ (decodeBitsAux (bitsToNat (encodeBits v lo hi n)) n lo hi).1 ∧
    (decodeBitsAux (bitsToNat (encodeBits v lo hi n)) n lo hi).1 ≤ v ∧
    v ≤ (decodeBitsAux (bitsToNat (encodeBits v lo hi n)) n lo hi).2 ∧
    (decodeBitsAux (bitsToNat (encodeBits v lo hi n)) n lo hi).2 ≤ hi ∧
    (decodeBitsAux (bitsToNat (encodeBits v lo hi n)) n lo hi).2 -
      (decodeBitsAux (bitsToNat (encodeBits v lo hi n)) n lo hi).1 = (hi - lo) / 2 ^ n := by
  induction n generalizing v lo hi with
  | zero => exact ⟨le_refl _, h1, h2, le_refl _, by simp [decodeBitsAux]⟩
  | succ n ih =>
    have hpow : (2 : ℚ) ^ (n + 1) = 2 ^ n * 2 := by rw [pow_succ]
    simp only [encodeBits]
    split
    · rename_i hv
      have hlen : (encodeBits v ((lo + hi) / 2) hi n).length = n := encodeBits_length _ _ _ _
      rw [show n + 1 = (encodeBits v ((lo + hi) / 2) hi n).length + 1 by rw [hlen]]
      rw [decodeBitsAux_cons, if_pos rfl, hlen]
      obtain ⟨g1, g2, g3, g4, g5⟩ := ih v ((lo + hi) / 2) hi (le_of_lt hv) h2
      refine ⟨by linarith, g2, g3, g4, ?_⟩
      rw [g5, hpow]
      field_simp
      ring
    · rename_i hv
      push_neg at hv
      have hlen : (encodeBits v lo ((lo + hi) / 2) n).length = n := encodeBits_length _ _ _ _
      rw [show n + 1 = (encodeBits v lo ((lo + hi) / 2) n).length + 1 by rw [hlen]]
      rw [decodeBitsAux_cons, if_neg (by simp), hlen]
      obtain ⟨g1, g2, g3, g4, g5⟩ := ih v lo ((lo + hi) / 2) h1 hv
      refine ⟨g1, g2, g3, by linarith, ?_⟩
      rw [g5, hpow]
      field_simp
      ring

/-- Re-encoding the decoded midpoint reproduces the same bit stream. -/
theorem encodeBits_requant (n : ℕ) (v lo hi : ℚ) (h1 : lo ≤ v) (h2 : v ≤ hi)
    (hlt : lo < hi) :
    encodeBits (requant v lo hi n) lo hi n = encodeBits v lo hi n := by
  induction n generalizing v lo hi with
  | zero => rfl
  | succ n ih =>
    have hpos : (0 : ℚ) < 2 ^ n := by positivity
    by_cases hv : (lo + hi) / 2 < v
    · have hlen : (encodeBits v ((lo + hi) / 2) hi n).length = n := encodeBits_length _ _ _ _
      have hbits : encodeBits v lo hi (n + 1) = true :: encodeBits v ((lo + hi) / 2) hi n := by
        simp only [encodeBits]
        rw [if_pos hv]
      obtain ⟨g1, g2, g3, g4, g5⟩ :=
        decodeBitsAux_encodeBits n v ((lo + hi) / 2) hi (le_of_lt hv) h2
      have hm : requant v lo hi (n + 1) =
          requant v ((lo + hi) / 2) hi n := by
        rw [requant, requant, hbits, decodeBitstream, decodeBitstream]
        rw [show n + 1 = (encodeBits v ((lo + hi) / 2) hi n).length + 1 by rw [hlen]]
        rw [decodeBitsAux_cons, if_pos rfl, hlen]
      have hw : (0 : ℚ) < (hi - (lo + hi) / 2) / 2 ^ n := by
        apply div_pos (by linarith) hpos
      have hmv : (lo + hi) / 2 < requant v ((lo + hi) / 2) hi n := by
        rw [requant, decodeBitstream]
        linarith
      rw [hbits, hm]
      simp only [encodeBits]
      rw [if_pos hmv]
      rw [ih v ((lo + hi) / 2) hi (le_of_lt hv) h2 (by linarith)]
    · push_neg at hv
      have hlen : (encodeBits v lo ((lo + hi) / 2) n).length = n := encodeBits_length _ _ _ _
      have hbits : encodeBits v lo hi (n + 1) = false :: encodeBits v lo ((lo + hi) / 2) n := by
        simp only [encodeBits]
        rw [if_neg (by push_neg; exact hv)]
      obtain ⟨g1, g2, g3, g4, g5⟩ :=
        decodeBitsAux_encodeBits n v lo ((lo + hi) / 2) h1 hv
      have hm : requant v lo hi (n + 1) =
          requant v lo ((lo + hi) / 2) n := by
        rw [requant, requant, hbits, decodeBitstream, decodeBitstream]
        rw [show n + 1 = (encodeBits v lo ((lo + hi) / 2) n).length + 1 by rw [hlen]]
        rw [decodeBitsAux_cons, if_neg (by simp), hlen]
      have hmv : ¬ ((lo + hi) / 2 < requant v lo ((lo + hi) / 2) n) := by
        rw [requant, decodeBitstream]
        push_neg
        linarith
      rw [hbits, hm]
      simp only [encodeBits]
      rw [if_neg hmv]
      rw [ih v lo ((lo + hi) / 2) h1 hv (by linarith)]

theorem requant_bounds (n : ℕ) (v lo hi : ℚ) (h1 : lo ≤ v) (h2 : v ≤ hi) :
    lo ≤ requant v lo hi n ∧ requant v lo hi n ≤ hi ∧
      |requant v lo hi n - v| ≤ (hi - lo) / 2 ^ n := by
  obtain ⟨g1, g2, g3, g4, g5⟩ := decodeBitsAux_encodeBits n v lo hi h1 h2
  have hw : (0 : ℚ) ≤ (hi - lo) / 2 ^ n := by
    apply div_nonneg
    · linarith
    · positivity
  rw [requant, decodeBitstream]
  refine ⟨by linarith, by linarith, abs_le.mpr ⟨by linarith, by linarith⟩⟩

/-- Encoding the upper endpoint produces the all-ones bit stream. -/
theorem encodeBits_top (n : ℕ) (lo hi : ℚ) (h : lo < hi) :
    encodeBits hi lo hi n = List.replicate n true := by
  induction n generalizing lo with
  | zero => rfl
  | succ n ih =>
    rw [encodeBits, if_pos (by linarith), List.replicate_succ, ih ((lo + hi) / 2) (by linarith)]

/-- Encoding any value within the lowest cell produces the all-zeros bit
stream. -/
theorem encodeBits_bottom (n : ℕ) (v lo hi : ℚ) (h1 : lo ≤ v) (hlt : lo < hi)
    (h2 : v ≤ lo + (hi - lo) / 2 ^ n) :
    encodeBits v lo hi n = List.replicate n false := by
  induction n generalizing v lo hi with
  | zero => rfl
  | succ n ih =>
    have hpos : (0 : ℚ) < 2 ^ n := by positivity
    have hstep : lo + (hi - lo) / 2 ^ (n + 1) ≤ (lo + hi) / 2 := by
      rw [pow_succ]
      have h1n : (1 : ℚ) ≤ 2 ^ n := one_le_pow₀ (by norm_num)
      have hd : (hi - lo) / (2 ^ n * 2) ≤ (hi - lo) / 2 := by
        apply div_le_div_of_nonneg_left (by linarith) (by norm_num)
        linarith
      linarith
    rw [encodeBits, if_neg (by push_neg; linarith), List.replicate_succ]
    congr 1
    apply ih v lo ((lo + hi) / 2) h1 (by linarith)
    have : ((lo + hi) / 2 - lo) / 2 ^ n = (hi - lo) / 2 ^ (n + 1) := by
      rw [pow_succ]
      field_simp
      ring
    rw [this]
    exact h2

theorem decodeBitsAux_zero (n : ℕ) (lo hi : ℚ) :
    decodeBitsAux 0 n lo hi = (lo, lo + (hi - lo) / 2 ^ n) := by
  induction n generalizing lo hi with
  | zero => simp [decodeBitsAux]
  | succ n ih =>
    rw [decodeBitsAux]
    simp only [Nat.zero_shiftRight, Nat.zero_and, if_neg (by norm_num : ¬ (0 : ℕ) = 1)]
    rw [ih]
    have : lo + ((lo + hi) / 2 - lo) / 2 ^ n = lo + (hi - lo) / 2 ^ (n + 1) := by
      rw [pow_succ]
      field_simp
      ring
    rw [this]

/-- Decoded value of the upper endpoint: the centre of the topmost cell. -/
theorem requant_top (n : ℕ) (lo hi : ℚ) (h : lo < hi) :
    requant hi lo hi n = hi - (hi - lo) / 2 ^ n / 2 := by
  obtain ⟨g1, g2, g3, g4, g5⟩ := decodeBitsAux_encodeBits n hi lo hi (le_of_lt h) (le_refl _)
  rw [requant, decodeBitstream]
  have h2 : (decodeBitsAux (bitsToNat (encodeBits hi lo hi n)) n lo hi).2 = hi :=
    le_antisymm g4 g3
  rw [h2] at g5 ⊢
  linarith

/-- Decoded value of any value in the lowest cell: the centre of the lowest
cell. -/
theorem requant_bottom (n : ℕ) (v lo hi : ℚ) (h1 : lo ≤ v) (hlt : lo < hi)
    (h2 : v ≤ lo + (hi - lo) / 2 ^ n) :
    requant v lo hi n = lo + (hi - lo) / 2 ^ n / 2 := by
  rw [requant, encodeBits_bottom n v lo hi h1 hlt h2, bitsToNat_replicate_false,
    decodeBitstream, decodeBitsAux_zero]
  ring

/-- The bits the interleaving loop body appends at index `i`. -/
def selBits (lonS latS : List Bool) (lb tb i : ℕ) : List Bool :=
  (if i < lb then [lonS.getD i false] else []) ++
    (if i < tb then [latS.getD i false] else [])

theorem interleave_eq_selBits (lonS latS : List Bool) (lb tb : ℕ) :
    interleave lonS latS lb tb =
      (List.range (max tb lb)).foldl
        (fun acc i => acc ++ selBits lonS latS lb tb i) [] := by
  rw [interleave]
  apply List.foldl_ext
  intro acc i _
  by_cases h1 : i < lb <;> by_cases h2 : i < tb <;> simp [selBits, h1, h2]

theorem foldl_append_acc (g : ℕ → List Bool) (l : List ℕ) :
    ∀ acc : List Bool,
      l.foldl (fun acc i => acc ++ g i) acc = acc ++ l.foldl (fun acc i => acc ++ g i) [] := by
  induction l with
  | nil => intro acc; simp
  | cons j t ih =>
    intro acc
    simp only [List.foldl_cons, List.nil_append]
    rw [ih, ih (g j), List.append_assoc]

theorem selBits_zero (x y : Bool) (xs ys : List Bool) :
    selBits (x :: xs) (y :: ys) (xs.length + 1) (ys.length + 1) 0 = [x, y] := by
  simp [selBits]

theorem selBits_succ (x y : Bool) (xs ys : List Bool) (i : ℕ) :
    selBits (x :: xs) (y :: ys) (xs.length + 1) (ys.length + 1) (i + 1) =
      selBits xs ys xs.length ys.length i := by
  simp only [selBits, Nat.add_lt_add_iff_right, List.getD_cons_succ]

theorem riffle_length (xs : List Bool) : ∀ ys : List Bool, ys.length ≤ xs.length →
    (riffle xs ys).length = xs.length + ys.length := by
  induction xs with
  | nil =>
    intro ys h
    have : ys = [] := by
      cases ys
      · rfl
      · simp at h
    subst this
    rfl
  | cons x xs ih =>
    intro ys h
    cases ys with
    | nil => simp [riffle]
    | cons y ys =>
      simp only [riffle, List.length_cons]
      rw [ih ys (by simpa using h)]
      omega

theorem splitParity_riffle (xs : List Bool) : ∀ ys : List Bool,
    ys.length ≤ xs.length → xs.length ≤ ys.length + 1 →
    splitParity (riffle xs ys) = (xs, ys) := by
  induction xs with
  | nil =>
    intro ys h1 _
    have : ys = [] := by
      cases ys
      · rfl
      · simp at h1
    subst this
    rfl
  | cons x xs ih =>
    intro ys h1 h2
    cases ys with
    | nil =>
      cases xs with
      | nil => rfl
      | cons z zs => simp [List.length_cons] at h2
    | cons y ys =>
      show splitParity (x :: y :: riffle xs ys) = _
      simp only [splitParity]
      rw [ih ys (by simpa using h1) (by simpa using h2)]

theorem interleave_eq_riffle (latS : List Bool) : ∀ lonS : List Bool,
    latS.length ≤ lonS.length → lonS.length ≤ latS.length + 1 →
    interleave lonS latS lonS.length latS.length = riffle lonS latS := by
  induction latS with
  | nil =>
    intro lonS h1 h2
    rcases lonS with _ | ⟨x, _ | ⟨y, t⟩⟩
    · rfl
    · rfl
    · simp [List.length_cons] at h2
  | cons y ys ih =>
    intro lonS h1 h2
    rcases lonS with _ | ⟨x, xs⟩
    · simp at h1
    · have hy : ys.length ≤ xs.length := by
        simp only [List.length_cons] at h1
        omega
      have hx : xs.length ≤ ys.length + 1 := by
        simp only [List.length_cons] at h2
        omega
      have hmax' : max (ys.length + 1) (xs.length + 1) = xs.length + 1 := by
        omega
      have hrefold : interleave xs ys xs.length ys.length =
          (List.range xs.length).foldl
            (fun acc i => acc ++ selBits xs ys xs.length ys.length i) [] := by
        rw [interleave_eq_selBits, Nat.max_eq_right hy]
      show interleave (x :: xs) (y :: ys) (x :: xs).length (y :: ys).length =
        x :: y :: riffle xs ys
      rw [interleave_eq_selBits]
      simp only [List.length_cons]
      rw [hmax']
      rw [List.range_succ_eq_map]
      simp only [List.foldl_cons, List.foldl_map, List.nil_append,
        Nat.succ_eq_add_one, selBits_zero, selBits_succ]
      rw [foldl_append_acc, ← hrefold, ih xs hy hx]
      simp [riffle]

theorem splitParity_append (l : List Bool) (b : Bool) :
    splitParity (l ++ [b]) =
      if l.length % 2 = 0 then ((splitParity l).1 ++ [b], (splitParity l).2)
      else ((splitParity l).1, (splitParity l).2 ++ [b]) := by
  induction l with
  | nil => simp [splitParity]
  | cons a t ih =>
    simp only [List.cons_append, splitParity, List.append_eq, List.length_cons]
    by_cases hp : t.length % 2 = 0
    · have hp1 : (t.length + 1) % 2 ≠ 0 := by omega
      rw [ih, if_pos hp, if_neg hp1]
    · have hp1 : (t.length + 1) % 2 = 0 := by omega
      rw [ih, if_neg hp, if_pos hp1]

/-- The deinterleaving loop of `decode`, run on the value of a combined bit
stream, recovers the even-indexed and odd-indexed sub-streams. -/
theorem deinterleave_spec (l : List Bool) :
    deinterleave (bitsToNat l) l.length =
      (bitsToNat (splitParity l).1, bitsToNat (splitParity l).2) := by
  induction l using List.reverseRecOn with
  | nil => rfl
  | append_singleton t b ih =>
    have hc : b.toNat ≤ 1 := Bool.toNat_le b
    have hv : bitsToNat (t ++ [b]) = 2 * bitsToNat t + b.toNat := by
      rw [bitsToNat_append, bitsToNat_singleton]
      simp
      ring
    have hlen : (t ++ [b]).length = t.length + 1 := by simp
    rw [hlen, deinterleave, List.range_succ, List.foldl_append, List.foldl_cons,
      List.foldl_nil]
    have hinner :
        (List.range t.length).foldl
          (fun (p : ℕ × ℕ) i =>
            let bit := (bitsToNat (t ++ [b]) >>> (t.length + 1 - 1 - i)) &&& 1
            if i % 2 = 0 then ((p.1 <<< 1) ||| bit, p.2)
            else (p.1, (p.2 <<< 1) ||| bit)) (0, 0)
        = deinterleave (bitsToNat t) t.length := by
      rw [deinterleave]
      apply List.foldl_ext
      intro p i hi
      have hi' : i < t.length := List.mem_range.mp hi
      have hbit : (bitsToNat (t ++ [b]) >>> (t.length + 1 - 1 - i)) &&& 1 =
          (bitsToNat t >>> (t.length - 1 - i)) &&& 1 := by
        rw [shiftRight_and_one, shiftRight_and_one, hv]
        have he : t.length + 1 - 1 - i = (t.length - 1 - i) + 1 := by omega
        rw [he, pow_succ]
        have h2 : (2 * bitsToNat t + b.toNat) / (2 ^ (t.length - 1 - i) * 2) =
            bitsToNat t / 2 ^ (t.length - 1 - i) := by
          rw [Nat.mul_comm (2 ^ (t.length - 1 - i)) 2, ← Nat.div_div_eq_div_mul]
          congr 1
          omega
        rw [h2]
      simp only [hbit]
    rw [hinner, ih]
    have hlast : (bitsToNat (t ++ [b]) >>> (t.length + 1 - 1 - t.length)) &&& 1 = b.toNat := by
      rw [shiftRight_and_one, hv]
      have : t.length + 1 - 1 - t.length = 0 := by omega
      rw [this, pow_zero, Nat.div_one]
      omega
    simp only [hlast]
    rw [splitParity_append]
    have hsplen : ∀ u : List Bool, (splitParity u).1.length + (splitParity u).2.length
        = u.length := by
      intro u
      induction u with
      | nil => rfl
      | cons a s ihs =>
        simp only [splitParity, List.length_cons]
        omega
    by_cases hp : t.length % 2 = 0
    · rw [if_pos hp, if_pos hp]
      have hor : (bitsToNat (splitParity t).1 <<< 1) ||| b.toNat =
          bitsToNat (splitParity t).1 * 2 + b.toNat :=
        shiftLeft_or_eq _ _ 1 (by omega)
      simp only [hor]
      rw [bitsToNat_append, bitsToNat_singleton]
      simp
    · rw [if_neg hp, if_neg hp]
      have hor : (bitsToNat (splitParity t).2 <<< 1) ||| b.toNat =
          bitsToNat (splitParity t).2 * 2 + b.toNat :=
        shiftLeft_or_eq _ _ 1 (by omega)
      simp only [hor]
      rw [bitsToNat_append, bitsToNat_singleton]
      simp

theorem chunkChar_spec (chunk : List Bool) (h : chunk.length = 5) :
    chunkChar chunk ∈ BASE32 ∧ BASE32.indexOf (chunkChar chunk) = bitsToNat chunk := by
  rcases chunk with _ | ⟨a, _ | ⟨b, _ | ⟨c, _ | ⟨d, _ | ⟨e, _ | ⟨f, t⟩⟩⟩⟩⟩⟩ <;>
    simp only [List.length_cons, List.length_nil] at h <;> try omega
  cases a <;> cases b <;> cases c <;> cases d <;> cases e <;> decide

theorem toBase32_length (k : ℕ) : ∀ bits : List Bool, (toBase32 bits k).length = k := by
  induction k with
  | zero => intro bits; rfl
  | succ k ih => intro bits; simp [toBase32, ih]

theorem toBase32_mem (k : ℕ) : ∀ bits : List Bool, bits.length = 5 * k →
    ∀ c ∈ toBase32 bits k, c ∈ BASE32 := by
  induction k with
  | zero => intro bits h c hc; simp [toBase32] at hc
  | succ k ih =>
    intro bits h c hc
    simp only [toBase32, List.mem_cons] at hc
    rcases hc with rfl | hc
    · refine (chunkChar_spec _ ?_).1
      rw [List.length_take]
      omega
    · refine ih (bits.drop 5) ?_ c hc
      rw [List.length_drop]
      omega

theorem toBase32_fold (k : ℕ) : ∀ (bits : List Bool) (acc : ℕ), bits.length = 5 * k →
    (toBase32 bits k).foldl (fun acc c => (acc <<< 5) ||| BASE32.indexOf c) acc
      = acc * 2 ^ (5 * k) + bitsToNat bits := by
  induction k with
  | zero =>
    intro bits acc h
    have hnil : bits = [] := List.eq_nil_of_length_eq_zero (by omega)
    subst hnil
    simp [toBase32, bitsToNat]
  | succ k ih =>
    intro bits acc h
    have htake : (bits.take 5).length = 5 := by
      rw [List.length_take]
      omega
    have hdrop : (bits.drop 5).length = 5 * k := by
      rw [List.length_drop]
      omega
    simp only [toBase32, List.foldl_cons]
    rw [(chunkChar_spec _ htake).2]
    have hlt : bitsToNat (bits.take 5) < 2 ^ 5 := by
      have := bitsToNat_lt (bits.take 5)
      rwa [htake] at this
    rw [shiftLeft_or_eq _ _ 5 hlt, ih (bits.drop 5) _ hdrop]
    conv_rhs => rw [← List.take_append_drop 5 bits]
    rw [bitsToNat_append, hdrop]
    have hpow : 2 ^ (5 * (k + 1)) = 2 ^ (5 * k) * 2 ^ 5 := by
      rw [← pow_add]
      congr 1
    rw [hpow]
    ring

theorem encodeBitstream_ok (value lo hi : ℚ) (n : ℕ) (h1 : lo ≤ value) (h2 : value ≤ hi) :
    encodeBitstream value lo hi n = .ok (encodeBits value lo hi n) := by
  rw [encodeBitstream, if_pos ⟨h1, h2⟩]

theorem encode_eq_ok (p : ℕ) (lat lon : ℚ) (h1 : -90 ≤ lat) (h2 : lat ≤ 90)
    (h3 : -180 ≤ lon) (h4 : lon ≤ 180) :
    encode p lat lon = .ok (toBase32
      (interleave (encodeBits lon (-180) 180 (p * 5 - p * 5 / 2))
        (encodeBits lat (-90) 90 (p * 5 / 2))
        (p * 5 - p * 5 / 2) (p * 5 / 2))
      ((p * 5 + 4) / 5)) := by
  simp only [encode, encodeBitstream_ok lat (-90) 90 (p * 5 / 2) h1 h2,
    encodeBitstream_ok lon (-180) 180 (p * 5 - p * 5 / 2) h3 h4]

/-- Round trip: on in-range inputs `encode` succeeds, the code has the right
length over the alphabet, and `decode` recovers the re-quantised point. -/
theorem encode_decode (p : ℕ) (lat lon : ℚ) (h1 : -90 ≤ lat) (h2 : lat ≤ 90)
    (h3 : -180 ≤ lon) (h4 : lon ≤ 180) :
    ∃ code, encode p lat lon = .ok code ∧ code.length = p ∧ (∀ c ∈ code, c ∈ BASE32) ∧
      decode p code = .ok (requant lat (-90) 90 (p * 5 / 2),
                           requant lon (-180) 180 (p * 5 - p * 5 / 2)) := by
  have hlatlen := encodeBits_length lat (-90) 90 (p * 5 / 2)
  have hlonlen := encodeBits_length lon (-180) 180 (p * 5 - p * 5 / 2)
  set latS := encodeBits lat (-90) 90 (p * 5 / 2) with hlatS
  set lonS := encodeBits lon (-180) 180 (p * 5 - p * 5 / 2) with hlonS
  set combined := interleave lonS latS (p * 5 - p * 5 / 2) (p * 5 / 2) with hcomb
  set code := toBase32 combined ((p * 5 + 4) / 5) with hcode
  have hb1 : latS.length ≤ lonS.length := by
    rw [hlatlen, hlonlen]
    omega
  have hb2 : lonS.length ≤ latS.length + 1 := by
    rw [hlatlen, hlonlen]
    omega
  have hriffle : combined = riffle lonS latS := by
    have hr := interleave_eq_riffle latS lonS hb1 hb2
    rw [hlonlen, hlatlen] at hr
    exact hr
  have hclen : combined.length = p * 5 := by
    rw [hriffle, riffle_length lonS latS hb1, hlatlen, hlonlen]
    omega
  have hc5 : combined.length = 5 * ((p * 5 + 4) / 5) := by
    rw [hclen]
    omega
  have hsplit : splitParity combined = (lonS, latS) := by
    rw [hriffle]
    exact splitParity_riffle lonS latS hb1 hb2
  have hmem : ∀ c ∈ code, c ∈ BASE32 := toBase32_mem _ combined hc5
  have hlen : code.length = p := by
    rw [hcode, toBase32_length]
    omega
  refine ⟨code, encode_eq_ok p lat lon h1 h2 h3 h4, hlen, hmem, ?_⟩
  have hV : code.foldl (fun acc c => (acc <<< 5) ||| BASE32.indexOf c) 0
      = bitsToNat combined := by
    rw [hcode, toBase32_fold ((p * 5 + 4) / 5) combined 0 hc5]
    simp
  have hdeint : deinterleave (bitsToNat combined) (p * 5) = (bitsToNat lonS, bitsToNat latS) := by
    rw [← hclen, deinterleave_spec, hsplit]
  simp only [decode, if_neg (not_not_intro hlen), if_neg (not_not_intro hmem), hV, hdeint]
  simp only [requant, hlatS, hlonS]

theorem decodeBitstream_bounds (b n : ℕ) (lo hi : ℚ) (h : lo ≤ hi) :
    lo + (hi - lo) / 2 ^ n / 2 ≤ decodeBitstream b n lo hi ∧
    decodeBitstream b n lo hi ≤ hi - (hi - lo) / 2 ^ n / 2 := by
  obtain ⟨g1, g2, g3⟩ := decodeBitsAux_bounds n b lo hi h
  rw [decodeBitstream]
  constructor <;> linarith

/-- Whenever `decode` succeeds the code has the configured length and the
returned point is a cell centre, hence strictly inside the coordinate
ranges by half a cell. -/
theorem decode_ok_inv (p : ℕ) (code : List Char) (la lo : ℚ)
    (h : decode p code = .ok (la, lo)) :
    code.length = p ∧
    -90 + 180 / 2 ^ (p * 5 / 2) / 2 ≤ la ∧ la ≤ 90 - 180 / 2 ^ (p * 5 / 2) / 2 ∧
    -180 + 360 / 2 ^ (p * 5 - p * 5 / 2) / 2 ≤ lo ∧
      lo ≤ 180 - 360 / 2 ^ (p * 5 - p * 5 / 2) / 2 := by
  rw [decode] at h
  by_cases hl : code.length ≠ p
  · rw [if_pos hl] at h
    exact absurd h (by simp)
  · rw [if_neg hl] at h
    by_cases ha : ∀ c ∈ code, c ∈ BASE32
    · rw [if_neg (not_not_intro ha)] at h
      have h' := Except.ok.inj h
      have hla : decodeBitstream
          (deinterleave (code.foldl (fun acc c => (acc <<< 5) ||| BASE32.indexOf c) 0)
            (p * 5)).2 (p * 5 / 2) (-90) 90 = la := congrArg Prod.fst h'
      have hlo : decodeBitstream
          (deinterleave (code.foldl (fun acc c => (acc <<< 5) ||| BASE32.indexOf c) 0)
            (p * 5)).1 (p * 5 - p * 5 / 2) (-180) 180 = lo := congrArg Prod.snd h'
      obtain ⟨B1a, B1b⟩ := decodeBitstream_bounds
        (deinterleave (code.foldl (fun acc c => (acc <<< 5) ||| BASE32.indexOf c) 0) (p * 5)).2
        (p * 5 / 2) (-90) 90 (by norm_num)
      obtain ⟨B2a, B2b⟩ := decodeBitstream_bounds
        (deinterleave (code.foldl (fun acc c => (acc <<< 5) ||| BASE32.indexOf c) 0) (p * 5)).1
        (p * 5 - p * 5 / 2) (-180) 180 (by norm_num)
      rw [hla] at B1a B1b
      rw [hlo] at B2a B2b
      have e1 : (90 : ℚ) - (-90) = 180 := by norm_num
      have e2 : (180 : ℚ) - (-180) = 360 := by norm_num
      rw [e1] at B1a B1b
      rw [e2] at B2a B2b
      exact ⟨not_ne_iff.mp hl, by linarith, by linarith, by linarith, by linarith⟩
    · rw [if_pos ha] at h
      exact absurd h (by simp)

theorem encode_then_decode (p : ℕ) (lat lon : ℚ) (c : List Char)
    (h1 : -90 ≤ lat) (h2 : lat ≤ 90) (h3 : -180 ≤ lon) (h4 : lon ≤ 180)
    (hc : encode p lat lon = .ok c) :
    c.length = p ∧
    decode p c = .ok (requant lat (-90) 90 (p * 5 / 2),
                      requant lon (-180) 180 (p * 5 - p * 5 / 2)) := by
  obtain ⟨code, he, hlen, _, hdec⟩ := encode_decode p lat lon h1 h2 h3 h4
  rw [hc] at he
  have hcc : c = code := Except.ok.inj he
  subst hcc
  exact ⟨hlen, hdec⟩

theorem clampLat_bounds (x : ℚ) : -90 ≤ clampLat x ∧ clampLat x ≤ 90 := by
  rw [clampLat]
  split_ifs <;> constructor <;> linarith

theorem wrapLon_bounds (x : ℚ) (h1 : -540 ≤ x) (h2 : x ≤ 540) :
    -180 ≤ wrapLon x ∧ wrapLon x ≤ 180 := by
  rw [wrapLon]
  split_ifs <;> constructor <;> linarith

theorem getCellSize_eq (q : ℕ) :
    getCellSize q = (180 / 2 ^ (q * 5 / 2), 360 / 2 ^ (q * 5 - q * 5 / 2)) := rfl

theorem getCellSize_pos (q : ℕ) :
    0 < (getCellSize q).1 ∧ (getCellSize q).1 ≤ 180 ∧
    0 < (getCellSize q).2 ∧ (getCellSize q).2 ≤ 360 := by
  rw [getCellSize_eq]
  have h1 : (1 : ℚ) ≤ 2 ^ (q * 5 / 2) := one_le_pow₀ (by norm_num)
  have h2 : (1 : ℚ) ≤ 2 ^ (q * 5 - q * 5 / 2) := one_le_pow₀ (by norm_num)
  exact ⟨by positivity, div_le_self (by norm_num) h1, by positivity,
    div_le_self (by norm_num) h2⟩

theorem directions_cases (lh lw : ℚ) (d : String × ℚ × ℚ) (hd : d ∈ directions lh lw) :
    (d.2.1 = lh ∨ d.2.1 = -lh ∨ d.2.1 = 0) ∧ (d.2.2 = lw ∨ d.2.2 = -lw ∨ d.2.2 = 0) := by
  simp only [directions, List.mem_cons, List.not_mem_nil, or_false] at hd
  rcases hd with rfl | rfl | rfl | rfl | rfl | rfl | rfl | rfl <;> simp

theorem neighborEntry_eq (p : ℕ) (la lo : ℚ) (d : String × ℚ × ℚ) :
    neighborEntry p la lo d =
      (encode p (clampLat (la + d.2.1)) (wrapLon (lo + d.2.2))).map (fun c => (d.1, c)) := by
  unfold neighborEntry
  cases encode p (clampLat (la + d.2.1)) (wrapLon (lo + d.2.2)) <;> rfl

theorem neighborLoop_cons_ok (p : ℕ) (la lo : ℚ) (d : String × ℚ × ℚ)
    (rest : List (String × ℚ × ℚ)) (entry : String × List Char)
    (l : List (String × List Char))
    (h1 : neighborEntry p la lo d = .ok entry)
    (h2 : neighborLoop p la lo rest = .ok l) :
    neighborLoop p la lo (d :: rest) = .ok (entry :: l) := by
  unfold neighborLoop
  rw [h1, h2]
  rfl

theorem neighborLoop_ok (p : ℕ) (la lo : ℚ) :
    ∀ dirs : List (String × ℚ × ℚ),
      (∀ d ∈ dirs, ∃ c, encode p (clampLat (la + d.2.1)) (wrapLon (lo + d.2.2)) = .ok c) →
      ∃ l, neighborLoop p la lo dirs = .ok l ∧
        List.Forall₂ (fun (d : String × ℚ × ℚ) (e : String × List Char) =>
          e.1 = d.1 ∧ encode p (clampLat (la + d.2.1)) (wrapLon (lo + d.2.2)) = .ok e.2)
          dirs l := by
  intro dirs
  induction dirs with
  | nil => exact fun _ => ⟨[], rfl, List.Forall₂.nil⟩
  | cons d rest ih =>
    intro H
    obtain ⟨c, hc⟩ := H d (by simp)
    obtain ⟨l, hl, hf⟩ := ih (fun d' hd' => H d' (by simp [hd']))
    have he : neighborEntry p la lo d = .ok (d.1, c) := by
      rw [neighborEntry_eq, hc]
      rfl
    exact ⟨(d.1, c) :: l, neighborLoop_cons_ok p la lo d rest _ l he hl,
      List.Forall₂.cons ⟨rfl, hc⟩ hf⟩

/-- On any successfully decoded code, `get_neighbors` succeeds, and its
entries come from re-encoding the clamped/wrapped offset points. -/
theorem getNeighbors_ok (p : ℕ) (code : List Char) (cla clo : ℚ)
    (hdec : decode p code = .ok (cla, clo)) :
    ∃ l, getNeighbors p code = .ok l ∧
      List.Forall₂ (fun (d : String × ℚ × ℚ) (e : String × List Char) =>
        e.1 = d.1 ∧ encode p (clampLat (cla + d.2.1)) (wrapLon (clo + d.2.2)) = .ok e.2)
        (directions (getCellSize code.length).1 (getCellSize code.length).2) l := by
  obtain ⟨hclen, b1, b2, b3, b4⟩ := decode_ok_inv p code cla clo hdec
  have hm1 : (0 : ℚ) ≤ 180 / 2 ^ (p * 5 / 2) / 2 := by positivity
  have hm2 : (0 : ℚ) ≤ 360 / 2 ^ (p * 5 - p * 5 / 2) / 2 := by positivity
  have H : ∀ d ∈ directions (getCellSize code.length).1 (getCellSize code.length).2,
      ∃ c, encode p (clampLat (cla + d.2.1)) (wrapLon (clo + d.2.2)) = .ok c := by
    intro d hd
    obtain ⟨q1, q2, q3, q4⟩ := getCellSize_pos code.length
    obtain ⟨_, hdlon⟩ := directions_cases _ _ d hd
    have hw0 : -540 ≤ clo + d.2.2 ∧ clo + d.2.2 ≤ 540 := by
      rcases hdlon with h | h | h <;> rw [h] <;> constructor <;> linarith
    obtain ⟨hw1, hw2⟩ := wrapLon_bounds _ hw0.1 hw0.2
    obtain ⟨hc1, hc2⟩ := clampLat_bounds (cla + d.2.1)
    obtain ⟨c, hce, _, _, _⟩ := encode_decode p _ _ hc1 hc2 hw1 hw2
    exact ⟨c, hce⟩
  obtain ⟨l, hl, hf⟩ := neighborLoop_ok p cla clo _ H
  refine ⟨l, ?_, hf⟩
  simp only [getNeighbors, hdec]
  exact hl

theorem decode_length_error (p : ℕ) (code : List Char) (h : code.length ≠ p) :
    decode p code = .error .lengthError := by
  rw [decode, if_pos h]

theorem decode_alphabet_error (p : ℕ) (code : List Char) (h : code.length = p)
    (hbad : ∃ c ∈ code, c ∉ BASE32) :
    decode p code = .error .alphabetError := by
  obtain ⟨c, hc, hcb⟩ := hbad
  rw [decode, if_neg (fun hne => hne h), if_pos (fun hall => hcb (hall c hc))]

theorem getNeighbors_length_error (p : ℕ) (code : List Char) (h : code.length ≠ p) :
    getNeighbors p code = .error .lengthError := by
  simp only [getNeighbors, decode_length_error p code h]
  rfl

theorem encodeBitstream_range_error (value lo hi : ℚ) (n : ℕ)
    (h : ¬ (lo ≤ value ∧ value ≤ hi)) :
    encodeBitstream value lo hi n = .error .rangeError := by
  rw [encodeBitstream, if_neg h]

theorem encode_ok_length (p : ℕ) (lat lon : ℚ) (c : List Char)
    (h : encode p lat lon = .ok c) : c.length = p := by
  by_cases hA : -90 ≤ lat ∧ lat ≤ 90
  · by_cases hB : -180 ≤ lon ∧ lon ≤ 180
    · rw [encode_eq_ok p lat lon hA.1 hA.2 hB.1 hB.2] at h
      have hc : c = toBase32
          (interleave (encodeBits lon (-180) 180 (p * 5 - p * 5 / 2))
            (encodeBits lat (-90) 90 (p * 5 / 2)) (p * 5 - p * 5 / 2) (p * 5 / 2))
          ((p * 5 + 4) / 5) := (Except.ok.inj h).symm
      rw [hc, toBase32_length]
      omega
    · have e2 : encodeBitstream lon (-180) 180 (p * 5 - p * 5 / 2) = .error .rangeError :=
        encodeBitstream_range_error _ _ _ _ hB
      have e1 : encodeBitstream lat (-90) 90 (p * 5 / 2) =
          .ok (encodeBits lat (-90) 90 (p * 5 / 2)) :=
        encodeBitstream_ok _ _ _ _ hA.1 hA.2
      simp only [encode, e1, e2] at h
      exact Except.noConfusion h
  · have e1 : encodeBitstream lat (-90) 90 (p * 5 / 2) = .error .rangeError :=
      encodeBitstream_range_error _ _ _ _ hA
    simp only [encode, e1] at h
    exact Except.noConfusion h

theorem forall2_right_mem {α β : Type} {P : α → β → Prop} :
    ∀ {ds : List α} {l : List β}, List.Forall₂ P ds l → ∀ e ∈ l, ∃ d ∈ ds, P d e := by
  intro ds l h
  induction h with
  | nil => intro e he; simp at he
  | cons h1 _ ih =>
    intro e he
    rcases List.mem_cons.mp he with rfl | he'
    · exact ⟨_, by simp, h1⟩
    · obtain ⟨d, hd, hP⟩ := ih e he'
      exact ⟨d, by simp [hd], hP⟩

theorem forall2_fst_map {γ : Type} {Q : (String × ℚ × ℚ) → (String × γ) → Prop}
    (hQ : ∀ d e, Q d e → e.1 = d.1) :
    ∀ {ds : List (String × ℚ × ℚ)} {l : List (String × γ)},
      List.Forall₂ Q ds l → l.map Prod.fst = ds.map Prod.fst := by
  intro ds l h
  induction h with
  | nil => rfl
  | cons h1 _ ih => simp [hQ _ _ h1, ih]

/-!
Claim theorems.
-/

/-- C1: for every precision in `[1, 12]` and coordinates in range, decoding
the code produced by `encode` returns a point whose latitude differs from
the input by at most `180 / 2 ^ (precision * 5 / 2)` and whose longitude
differs by at most `360 / 2 ^ (precision * 5 - precision * 5 / 2)`, the cell
size of `_get_cell_size`. -/
theorem claim1_roundtrip_error_bound (p : ℕ) (lat lon : ℚ)
    (hp1 : 1 ≤ p) (hp2 : p ≤ 12)
    (h1 : -90 ≤ lat) (h2 : lat ≤ 90) (h3 : -180 ≤ lon) (h4 : lon ≤ 180) :
    ∃ code lat2 lon2,
      encode p lat lon = .ok code ∧ decode p code = .ok (lat2, lon2) ∧
      |lat2 - lat| ≤ 180 / 2 ^ (p * 5 / 2) ∧
      |lon2 - lon| ≤ 360 / 2 ^ (p * 5 - p * 5 / 2) ∧
      (getCellSize p).1 = 180 / 2 ^ (p * 5 / 2) ∧
      (getCellSize p).2 = 360 / 2 ^ (p * 5 - p * 5 / 2) := by
  obtain ⟨code, he, _, _, hdec⟩ := encode_decode p lat lon h1 h2 h3 h4
  refine ⟨code, _, _, he, hdec, ?_, ?_, rfl, rfl⟩
  · have hb := (requant_bounds (p * 5 / 2) lat (-90) 90 h1 h2).2.2
    have e1 : (90 : ℚ) - (-90) = 180 := by norm_num
    rwa [e1] at hb
  · have hb := (requant_bounds (p * 5 - p * 5 / 2) lon (-180) 180 h3 h4).2.2
    have e2 : (180 : ℚ) - (-180) = 360 := by norm_num
    rwa [e2] at hb

/-- Witness for C1 at precision 2, latitude 1/3, longitude 100. -/
theorem claim1_roundtrip_error_bound_witness :
    ∃ code lat2 lon2,
      encode 2 (1/3) 100 = .ok code ∧ decode 2 code = .ok (lat2, lon2) ∧
      |lat2 - 1/3| ≤ 180 / 2 ^ 5 ∧ |lon2 - 100| ≤ 360 / 2 ^ 5 ∧
      (getCellSize 2).1 = 180 / 2 ^ 5 ∧ (getCellSize 2).2 = 360 / 2 ^ 5 :=
  claim1_roundtrip_error_bound 2 (1/3) 100 (by norm_num) (by norm_num)
    (by norm_num) (by norm_num) (by norm_num) (by norm_num)

/-- C3: encoding the coordinate returned by `decode (encode lat lon)` at the
same precision yields exactly the same code string. -/
theorem claim3_reencode_idempotent (p : ℕ) (lat lon : ℚ)
    (hp1 : 1 ≤ p) (hp2 : p ≤ 12)
    (h1 : -90 ≤ lat) (h2 : lat ≤ 90) (h3 : -180 ≤ lon) (h4 : lon ≤ 180) :
    ∃ code lat2 lon2,
      encode p lat lon = .ok code ∧ decode p code = .ok (lat2, lon2) ∧
      encode p lat2 lon2 = .ok code := by
  obtain ⟨code, he, _, _, hdec⟩ := encode_decode p lat lon h1 h2 h3 h4
  refine ⟨code, _, _, he, hdec, ?_⟩
  obtain ⟨q1, q2, _⟩ := requant_bounds (p * 5 / 2) lat (-90) 90 h1 h2
  obtain ⟨r1, r2, _⟩ := requant_bounds (p * 5 - p * 5 / 2) lon (-180) 180 h3 h4
  rw [encode_eq_ok p _ _ q1 q2 r1 r2,
    encodeBits_requant (p * 5 / 2) lat (-90) 90 h1 h2 (by norm_num),
    encodeBits_requant (p * 5 - p * 5 / 2) lon (-180) 180 h3 h4 (by norm_num),
    ← encode_eq_ok p lat lon h1 h2 h3 h4]
  exact he

/-- Witness for C3 at precision 1, latitude 10, longitude 20. -/
theorem claim3_reencode_idempotent_witness :
    ∃ code lat2 lon2,
      encode 1 10 20 = .ok code ∧ decode 1 code = .ok (lat2, lon2) ∧
      encode 1 lat2 lon2 = .ok code :=
  claim3_reencode_idempotent 1 10 20 (by norm_num) (by norm_num)
    (by norm_num) (by norm_num) (by norm_num) (by norm_num)

/-- C4: every code produced by `encode` on valid input has length exactly
the configured precision, and all its characters are in the 32-symbol
alphabet; in particular none of them is `a`, `i`, `l` or `o`. -/
theorem claim4_length_alphabet (p : ℕ) (lat lon : ℚ)
    (hp1 : 1 ≤ p) (hp2 : p ≤ 12)
    (h1 : -90 ≤ lat) (h2 : lat ≤ 90) (h3 : -180 ≤ lon) (h4 : lon ≤ 180) :
    ∃ code, encode p lat lon = .ok code ∧ code.length = p ∧
      (∀ c ∈ code, c ∈ BASE32) ∧
      ∀ c ∈ code, c ∉ (['a', 'i', 'l', 'o'] : List Char) := by
  obtain ⟨code, he, hlen, hmem, _⟩ := encode_decode p lat lon h1 h2 h3 h4
  refine ⟨code, he, hlen, hmem, fun c hc => ?_⟩
  exact (by decide : ∀ x ∈ BASE32, x ∉ (['a', 'i', 'l', 'o'] : List Char)) c (hmem c hc)

/-- Witness for C4 at precision 1, latitude -90, longitude -180. -/
theorem claim4_length_alphabet_witness :
    ∃ code, encode 1 (-90) (-180) = .ok code ∧ code.length = 1 ∧
      (∀ c ∈ code, c ∈ BASE32) ∧
      ∀ c ∈ code, c ∉ (['a', 'i', 'l', 'o'] : List Char) :=
  claim4_length_alphabet 1 (-90) (-180) (by norm_num) (by norm_num)
    (by norm_num) (by norm_num) (by norm_num) (by norm_num)

/-- C7: `decode` fails with the length-mismatch error on every code whose
length differs from the configured precision, and with the alphabet error on
every code of correct length containing a character outside the alphabet;
being `Except.error`, it returns no coordinate at all in either case. -/
theorem claim7_decode_errors :
    (∀ (p : ℕ) (code : List Char), code.length ≠ p →
        decode p code = .error .lengthError) ∧
    (∀ (p : ℕ) (code : List Char), code.length = p → (∃ c ∈ code, c ∉ BASE32) →
        decode p code = .error .alphabetError) :=
  ⟨decode_length_error, decode_alphabet_error⟩

/-- Witness for C7: a 3-character code on a precision-5 codec, and a
5-character code containing `a`. -/
theorem claim7_decode_errors_witness :
    decode 5 ['0', '0', '0'] = .error .lengthError ∧
    decode 5 ['a', '0', '0', '0', '0'] = .error .alphabetError :=
  ⟨claim7_decode_errors.1 5 ['0', '0', '0'] (by decide),
   claim7_decode_errors.2 5 ['a', '0', '0', '0', '0'] (by decide)
     ⟨'a', by decide, by decide⟩⟩

/-- C8: construction succeeds at precision 1 and 12 and fails with the
configuration error at precision 0, 13, and generally any precision outside
`[1, 12]`. -/
theorem claim8_construction_bounds :
    init 1 = .ok 1 ∧ init 12 = .ok 12 ∧
    init 0 = .error .configError ∧ init 13 = .error .configError ∧
    ∀ p : ℤ, (p < 1 ∨ 12 < p) → init p = .error .configError := by
  refine ⟨rfl, rfl, rfl, rfl, fun p hp => ?_⟩
  rw [init, if_neg]
  omega

/-- Witness for C8 at precision -3. -/
theorem claim8_construction_bounds_witness :
    init (-3) = .error .configError :=
  claim8_construction_bounds.2.2.2.2 (-3) (by omega)

/-- C9: on every code that `decode` accepts, `get_neighbors` returns a
result and never an error; in particular the out-of-range branch of
`_encode_bitstream` is unreachable from `get_neighbors`, every offset point
being clamped into `[-90, 90]` and wrapped into `[-180, 180]` first. -/
theorem claim9_no_range_error (p : ℕ) (code : List Char) (cla clo : ℚ)
    (hdec : decode p code = .ok (cla, clo)) :
    (∃ l, getNeighbors p code = .ok l) ∧
    ∀ e : GeoError, getNeighbors p code ≠ .error e := by
  obtain ⟨l, hl, _⟩ := getNeighbors_ok p code cla clo hdec
  refine ⟨⟨l, hl⟩, fun e he => ?_⟩
  rw [hl] at he
  exact Except.noConfusion he

unseal Rat.add Rat.mul Rat.inv Rat.sub in
/-- Witness for C9 on the precision-1 code `z`. -/
theorem claim9_no_range_error_witness :
    (∃ l, getNeighbors 1 ['z'] = .ok l) ∧
    ∀ e : GeoError, getNeighbors 1 ['z'] ≠ .error e :=
  claim9_no_range_error 1 ['z'] (135/2) (315/2) (by rfl)

/-- C10: the default precision of the constructor is 5, so a
default-constructed codec emits 5-character codes and rejects any other
length in `decode`. -/
theorem claim10_default_precision :
    defaultPrecision = 5 ∧ init defaultPrecision = .ok 5 ∧
    (∀ lat lon : ℚ, -90 ≤ lat → lat ≤ 90 → -180 ≤ lon → lon ≤ 180 →
      ∃ code, encode 5 lat lon = .ok code ∧ code.length = 5) ∧
    ∀ code : List Char, code.length ≠ 5 → decode 5 code = .error .lengthError := by
  refine ⟨rfl, rfl, fun lat lon h1 h2 h3 h4 => ?_, fun code h => decode_length_error 5 code h⟩
  obtain ⟨c, he, hlen, _, _⟩ := encode_decode 5 lat lon h1 h2 h3 h4
  exact ⟨c, he, hlen⟩

/-- Witness for C10 at the origin and on a 1-character code. -/
theorem claim10_default_precision_witness :
    (∃ code, encode 5 0 0 = .ok code ∧ code.length = 5) ∧
    decode 5 ['0'] = .error .lengthError :=
  ⟨claim10_default_precision.2.2.1 0 0 (by norm_num) (by norm_num)
      (by norm_num) (by norm_num),
   claim10_default_precision.2.2.2 ['0'] (by decide)⟩

/-- C2 counterexample: the precision-5 codec rejects the valid 1-character
code `9`: `get_neighbors` propagates `decode`'s length-mismatch error and
returns no neighbor codes at all, refuting the claim that it accepts codes
of any length in `[1, 12]`. -/
theorem claim2_counterexample :
    (['9'] : List Char).length = 1 ∧ (∀ c ∈ (['9'] : List Char), c ∈ BASE32) ∧
    getNeighbors 5 ['9'] = .error .lengthError :=
  ⟨rfl, by decide, by rfl⟩

/-- C2 amended: `get_neighbors` rejects (with the length-mismatch error of
its initial `decode`) every code whose length differs from the configured
precision; on every code `decode` accepts — whose length therefore equals
the configured precision — it computes the cell size from the input code's
length and returns the eight compass neighbors, each with the same length
as the input code. -/
theorem claim2_neighbor_lengths :
    (∀ (p : ℕ) (code : List Char), code.length ≠ p →
        getNeighbors p code = .error .lengthError) ∧
    (∀ (p : ℕ) (code : List Char) (cla clo : ℚ), decode p code = .ok (cla, clo) →
      ∃ l, getNeighbors p code = .ok l ∧
        l.map Prod.fst = ["n", "s", "e", "w", "ne", "se", "nw", "sw"] ∧
        ∀ e ∈ l, (e.2 : List Char).length = code.length) := by
  refine ⟨getNeighbors_length_error, fun p code cla clo hdec => ?_⟩
  obtain ⟨hclen, _, _, _, _⟩ := decode_ok_inv p code cla clo hdec
  obtain ⟨l, hl, hf⟩ := getNeighbors_ok p code cla clo hdec
  refine ⟨l, hl, ?_, ?_⟩
  · rw [forall2_fst_map (fun d e h => h.1) hf]
    rfl
  · intro e he
    obtain ⟨d, _, hP⟩ := forall2_right_mem hf e he
    rw [encode_ok_length p _ _ e.2 hP.2, hclen]

unseal Rat.add Rat.mul Rat.inv Rat.sub in
/-- Witness for the C2 amended claim: the wrong-length code `9` at
precision 5, and the full neighbor set of `z` at precision 1. -/
theorem claim2_neighbor_lengths_witness :
    getNeighbors 5 ['9'] = .error .lengthError ∧
    (∃ l, getNeighbors 1 ['z'] = .ok l ∧
      l.map Prod.fst = ["n", "s", "e", "w", "ne", "se", "nw", "sw"] ∧
      ∀ e ∈ l, (e.2 : List Char).length = (['z'] : List Char).length) :=
  ⟨claim2_neighbor_lengths.1 5 ['9'] (by decide),
   claim2_neighbor_lengths.2 1 ['z'] (135/2) (315/2) (by rfl)⟩

unseal Rat.add Rat.mul Rat.inv Rat.sub in
/-- C5 counterexample: on the precision-1 codec the code `z` decodes to
latitude `135/2`, within one cell-height (45) of the pole, and its north
neighbor is `z` itself, whose decoded latitude is `135/2`, not exactly 90:
no decoded latitude is ever exactly 90, refuting the claim as stated. -/
theorem claim5_counterexample :
    decode 1 ['z'] = .ok (135/2, 315/2) ∧
    getCellSize 1 = (45, 45) ∧
    90 - (135/2 : ℚ) ≤ 45 ∧
    getNeighbors 1 ['z'] = .ok [("n", ['z']), ("s", ['x']), ("e", ['b']), ("w", ['y']),
      ("ne", ['b']), ("se", ['8']), ("nw", ['y']), ("sw", ['w'])] ∧
    (135/2 : ℚ) ≠ 90 :=
  ⟨by rfl, by rfl, by norm_num, by rfl, by norm_num⟩

/-- C5 amended: for every valid code whose decoded centre latitude is within
one cell-height of 90, the north offset is saturated at the pole (not
wrapped), so the north neighbor is the topmost cell: its decoded latitude
equals `90 - lat_err / 2`, the centre of that cell, and is strictly less
than 90 — never beyond the pole. -/
theorem claim5_pole_clamp (p : ℕ) (code : List Char) (cla clo lat_err lon_err : ℚ)
    (hp1 : 1 ≤ p) (hp2 : p ≤ 12)
    (hdec : decode p code = .ok (cla, clo))
    (hcell : getCellSize code.length = (lat_err, lon_err))
    (hnear : 90 - cla ≤ lat_err) :
    ∃ l nc nlat nlon, getNeighbors p code = .ok l ∧ ("n", nc) ∈ l ∧
      decode p nc = .ok (nlat, nlon) ∧
      nlat = 90 - lat_err / 2 ∧ nlat < 90 := by
  obtain ⟨hclen, b1, b2, b3, b4⟩ := decode_ok_inv p code cla clo hdec
  have hm1 : (0 : ℚ) ≤ 180 / 2 ^ (p * 5 / 2) / 2 := by positivity
  have hm2 : (0 : ℚ) ≤ 360 / 2 ^ (p * 5 - p * 5 / 2) / 2 := by positivity
  have hcell' : getCellSize p = (lat_err, lon_err) := by
    rw [← hclen]
    exact hcell
  have hle : lat_err = 180 / 2 ^ (p * 5 / 2) := by
    rw [getCellSize_eq] at hcell'
    exact (((Prod.mk.injEq _ _ _ _).mp hcell').1).symm
  have hlat_pos : (0 : ℚ) < lat_err := by
    rw [hle]
    positivity
  obtain ⟨l, hl, hf⟩ := getNeighbors_ok p code cla clo hdec
  simp only [directions] at hf
  rw [List.forall₂_cons_left_iff] at hf
  obtain ⟨e1, l1, h1, hf1, rfl⟩ := hf
  have hlab : e1.1 = "n" := h1.1
  have henc : encode p (clampLat (cla + (getCellSize code.length).1))
      (wrapLon (clo + 0)) = .ok e1.2 := h1.2
  have hX : (getCellSize code.length).1 = lat_err := by rw [hcell]
  rw [hX] at henc
  have hclamp : clampLat (cla + lat_err) = 90 := by
    rw [clampLat]
    split_ifs with hgt hlt
    · rfl
    · linarith
    · linarith
  have hwrap : wrapLon (clo + 0) = clo := by
    rw [wrapLon]
    split_ifs with hg hl2
    · linarith
    · linarith
    · ring
  rw [hclamp, hwrap] at henc
  obtain ⟨hnlen, hndec⟩ := encode_then_decode p 90 clo e1.2 (by norm_num) (by norm_num)
    (by linarith) (by linarith) henc
  have hrt := requant_top (p * 5 / 2) (-90 : ℚ) 90 (by norm_num)
  have e180 : (90 : ℚ) - (-90) = 180 := by norm_num
  rw [e180] at hrt
  refine ⟨e1 :: l1, e1.2, requant 90 (-90) 90 (p * 5 / 2),
    requant clo (-180) 180 (p * 5 - p * 5 / 2), hl, ?_, hndec, ?_, ?_⟩
  · rw [← hlab]
    exact List.mem_cons_self _ _
  · rw [hrt, hle]
  · rw [hrt]
    have hpos : (0 : ℚ) < 180 / 2 ^ (p * 5 / 2) / 2 := by positivity
    linarith

unseal Rat.add Rat.mul Rat.inv Rat.sub in
/-- Witness for the C5 amended claim at precision 1 on the code `z`. -/
theorem claim5_pole_clamp_witness :
    ∃ l nc nlat nlon, getNeighbors 1 ['z'] = .ok l ∧ ("n", nc) ∈ l ∧
      decode 1 nc = .ok (nlat, nlon) ∧
      nlat = 90 - (45 : ℚ) / 2 ∧ nlat < 90 :=
  claim5_pole_clamp 1 ['z'] (135/2) (315/2) 45 45 (by norm_num) (by norm_num)
    (by rfl) (by rfl) (by norm_num)

/-- C6: for every valid code whose decoded centre longitude plus one
cell-width exceeds 180, the east offset is wrapped by subtracting 360 once,
so the east neighbor is the cell just east of the antimeridian: its decoded
longitude equals `-180 + lon_err / 2` — within one cell-width of −180 — and
the decoded longitude of every neighbor is at most 180. -/
theorem claim6_antimeridian_wrap (p : ℕ) (code : List Char) (cla clo lat_err lon_err : ℚ)
    (hp1 : 1 ≤ p) (hp2 : p ≤ 12)
    (hdec : decode p code = .ok (cla, clo))
    (hcell : getCellSize code.length = (lat_err, lon_err))
    (hover : 180 < clo + lon_err) :
    ∃ l, getNeighbors p code = .ok l ∧
      (∃ ec elat elon, ("e", ec) ∈ l ∧ decode p ec = .ok (elat, elon) ∧
        elon = -180 + lon_err / 2 ∧ |elon - (-180)| ≤ lon_err ∧ elon ≤ 180) ∧
      ∀ e ∈ l, ∃ la2 lo2, decode p (e.2 : List Char) = .ok (la2, lo2) ∧ lo2 ≤ 180 := by
  obtain ⟨hclen, b1, b2, b3, b4⟩ := decode_ok_inv p code cla clo hdec
  have hm1 : (0 : ℚ) ≤ 180 / 2 ^ (p * 5 / 2) / 2 := by positivity
  have hm2 : (0 : ℚ) ≤ 360 / 2 ^ (p * 5 - p * 5 / 2) / 2 := by positivity
  have hcell' : getCellSize p = (lat_err, lon_err) := by
    rw [← hclen]
    exact hcell
  have hle2 : lon_err = 360 / 2 ^ (p * 5 - p * 5 / 2) := by
    rw [getCellSize_eq] at hcell'
    exact (((Prod.mk.injEq _ _ _ _).mp hcell').2).symm
  have hlon_pos : (0 : ℚ) < lon_err := by
    rw [hle2]
    positivity
  have hlon_le : lon_err ≤ 360 := by
    rw [hle2]
    exact div_le_self (by norm_num) (one_le_pow₀ (by norm_num))
  have b4' : clo ≤ 180 - lon_err / 2 := by
    rw [hle2]
    exact b4
  obtain ⟨l, hl, hf⟩ := getNeighbors_ok p code cla clo hdec
  have hall : ∀ e ∈ l, ∃ la2 lo2, decode p (e.2 : List Char) = .ok (la2, lo2) ∧ lo2 ≤ 180 := by
    intro e he
    obtain ⟨d, hd, _, henc⟩ := forall2_right_mem hf e he
    obtain ⟨q1, q2, q3, q4⟩ := getCellSize_pos code.length
    obtain ⟨_, hdlon⟩ := directions_cases _ _ d hd
    have hw0 : -540 ≤ clo + d.2.2 ∧ clo + d.2.2 ≤ 540 := by
      rcases hdlon with h | h | h <;> rw [h] <;> constructor <;> linarith
    obtain ⟨hw1, hw2⟩ := wrapLon_bounds _ hw0.1 hw0.2
    obtain ⟨hc1, hc2⟩ := clampLat_bounds (cla + d.2.1)
    obtain ⟨_, hndec⟩ := encode_then_decode p _ _ e.2 hc1 hc2 hw1 hw2 henc
    refine ⟨_, _, hndec, ?_⟩
    exact (requant_bounds (p * 5 - p * 5 / 2) _ (-180) 180 hw1 hw2).2.1
  simp only [directions] at hf
  rw [List.forall₂_cons_left_iff] at hf
  obtain ⟨e1, l1, h1, hf, rfl⟩ := hf
  rw [List.forall₂_cons_left_iff] at hf
  obtain ⟨e2, l2, h2, hf, rfl⟩ := hf
  rw [List.forall₂_cons_left_iff] at hf
  obtain ⟨e3, l3, h3, hf, rfl⟩ := hf
  have hlab3 : e3.1 = "e" := h3.1
  have henc3 : encode p (clampLat (cla + 0))
      (wrapLon (clo + (getCellSize code.length).2)) = .ok e3.2 := h3.2
  have hX : (getCellSize code.length).2 = lon_err := by rw [hcell]
  rw [hX] at henc3
  have hclampe : clampLat (cla + 0) = cla := by
    rw [clampLat]
    split_ifs with hgt hlt
    · linarith
    · linarith
    · ring
  have hwrape : wrapLon (clo + lon_err) = clo + lon_err - 360 := by
    rw [wrapLon, if_pos hover]
  rw [hclampe, hwrape] at henc3
  have hv1 : -180 ≤ clo + lon_err - 360 := by linarith
  have hv2 : clo + lon_err - 360 ≤ -180 + lon_err / 2 := by linarith
  have hv3 : clo + lon_err - 360 ≤ 180 := by linarith
  obtain ⟨_, hndec3⟩ := encode_then_decode p cla (clo + lon_err - 360) e3.2
    (by linarith) (by linarith) hv1 hv3 henc3
  have e360 : (180 : ℚ) - (-180) = 360 := by norm_num
  have hrb := requant_bottom (p * 5 - p * 5 / 2) (clo + lon_err - 360) (-180) 180 hv1
    (by norm_num) (by rw [e360, ← hle2]; linarith)
  rw [e360, ← hle2] at hrb
  have helon : requant (clo + lon_err - 360) (-180) 180 (p * 5 - p * 5 / 2)
      = -180 + lon_err / 2 := hrb
  refine ⟨_, hl, ⟨e3.2, _, _, ?_, hndec3, helon, ?_, ?_⟩, hall⟩
  · rw [← hlab3]
    exact List.mem_cons_of_mem _ (List.mem_cons_of_mem _ (List.mem_cons_self _ _))
  · rw [helon]
    have habs : -180 + lon_err / 2 - (-180 : ℚ) = lon_err / 2 := by ring
    rw [habs, abs_of_nonneg (by linarith)]
    linarith
  · rw [helon]
    linarith

unseal Rat.add Rat.mul Rat.inv Rat.sub in
/-- Witness for C6 at precision 1 on the code `z`, whose decoded longitude
315/2 plus the cell width 45 exceeds 180. -/
theorem claim6_antimeridian_wrap_witness :
    ∃ l, getNeighbors 1 ['z'] = .ok l ∧
      (∃ ec elat elon, ("e", ec) ∈ l ∧ decode 1 ec = .ok (elat, elon) ∧
        elon = -180 + (45 : ℚ) / 2 ∧ |elon - (-180)| ≤ 45 ∧ elon ≤ 180) ∧
      ∀ e ∈ l, ∃ la2 lo2, decode 1 (e.2 : List Char) = .ok (la2, lo2) ∧ lo2 ≤ 180 :=
  claim6_antimeridian_wrap 1 ['z'] (135/2) (315/2) 45 45 (by norm_num) (by norm_num)
    (by rfl) (by rfl) (by norm_num)

end Geohash
